import Mathlib

/-! Shallow embedding of the CRD documentation analysis tool
(the feature-complete variant of main.go in ai/request-llm).
Go strings are modelled as lists of characters with ASCII semantics;
Go byte length equals character count on the ASCII inputs the tool
manipulates. Each definition is a direct translation of the
correspondingly named Go function. -/

abbrev GoStr := List Char

/-- Go strings.HasPrefix, on the character-list model. -/
def goStartsWith : GoStr → GoStr → Bool
  | _, [] => true
  | [], _ :: _ => false
  | c :: s, q :: p => if q = c then goStartsWith s p else false

/-- Go strings.Contains, substring search on the character-list model. -/
def containsSub : GoStr → GoStr → Bool
  | [], pat => goStartsWith [] pat
  | c :: rest, pat => goStartsWith (c :: rest) pat || containsSub rest pat

/-- Go strings.HasSuffix, on the character-list model. -/
def goEndsWith (s pat : GoStr) : Bool :=
  goStartsWith s.reverse pat.reverse

/-- Go strings.Split with a single-character separator: splits at every
occurrence of the separator, keeping empty segments. -/
def goSplit (sep : Char) : GoStr → List GoStr
  | [] => [[]]
  | c :: rest =>
    match goSplit sep rest with
    | [] => [[]]
    | seg :: segs => if c = sep then [] :: seg :: segs else (c :: seg) :: segs

/-- Go strings.Join with a single-character separator. -/
def joinWith (sep : Char) : List GoStr → GoStr
  | [] => []
  | [s] => s
  | s :: t :: rest => s ++ sep :: joinWith sep (t :: rest)

/-- Go strings.ToLower restricted to ASCII case mapping (the tool only
compares against ASCII search terms). -/
def toLowerGo (s : GoStr) : GoStr :=
  s.map Char.toLower

/-- Go unicode.IsSpace on the characters relevant to this tool. -/
def goIsSpace (c : Char) : Bool :=
  c = ' ' || c = '\t' || c = '\n' || c = '\x0b' || c = '\x0c' || c = '\r'

/-- Go strings.TrimSpace. -/
def goTrimSpace (s : GoStr) : GoStr :=
  ((s.dropWhile goIsSpace).reverse.dropWhile goIsSpace).reverse

/-- Boolean membership of a string in a string list, modelling a Go map
key lookup. -/
def strMem (t : GoStr) : List GoStr → Bool
  | [] => false
  | s :: rest => if t = s then true else strMem t rest

/-- The "diff --git" file-header marker tested by strings.HasPrefix. -/
def dGitChars : GoStr := ['d', 'i', 'f', 'f', ' ', '-', '-', 'g', 'i', 't']

/-- The CRD schema subdirectory string "config/crd/bases/". -/
def crdBasesDir : GoStr := "config/crd/bases/".toList

/-- Remainder of the Go inline block that drops everything up to and
including the first slash of a diff path token. -/
def afterFirstSlash : GoStr → GoStr
  | [] => []
  | c :: rest => if c = '/' then rest else afterFirstSlash rest

/-- The inline prefix-stripping block shared by filterGitDiffByCRD and
filterRelevantFiles: when the path token contains a slash, keep only what
follows the first slash (dropping the version-control marker a/, b/, i/, ...). -/
def stripVcsMarker (file : GoStr) : GoStr :=
  if containsSub file ['/'] then afterFirstSlash file else file

/-- truncateString from main.go: returns the string unchanged when within
maxLen, otherwise the first maxLen characters followed by a fixed marker. -/
def truncMarker : GoStr := "\n... [TRUNCATED - content too long]".toList

/-- truncateString from main.go. -/
def truncateString (s : GoStr) (maxLen : Nat) : GoStr :=
  if s.length ≤ maxLen then s else s.take maxLen ++ truncMarker

/-- The header-relevance computation inside the loop of filterGitDiffByCRD:
on a well-formed "diff --git" line with at least 4 space-separated tokens the
verdict is whether the stripped old-side path token starts with
config/crd/bases/; any other line leaves the previous verdict unchanged. -/
def crdVerdict (prev : Bool) (line : GoStr) : Bool :=
  if goStartsWith line dGitChars then
    let parts := goSplit ' ' line
    if 4 ≤ parts.length then
      goStartsWith (stripVcsMarker (parts.getD 2 [])) crdBasesDir
    else prev
  else prev

/-- One iteration of the loop of filterGitDiffByCRD: update the
inRelevantFile flag, then append the line when the flag is set. -/
def crdStep (st : Bool × List GoStr) (line : GoStr) : Bool × List GoStr :=
  let inRel := crdVerdict st.1 line
  (inRel, if inRel then st.2 ++ [line] else st.2)

/-- filterGitDiffByCRD from main.go: keeps only the diff lines currently
inside a file header whose stripped path is under config/crd/bases/. -/
def filterGitDiffByCRD (gitDiff : GoStr) : GoStr :=
  joinWith '\n' (((goSplit '\n' gitDiff).foldl crdStep (false, [])).2)

/-- One iteration of the loop of filterRelevantFiles: on a well-formed
"diff --git" header whose stripped old-side path is under config/crd/bases/,
append that path to the collected file list. -/
def relFilesStep (files : List GoStr) (line : GoStr) : List GoStr :=
  if goStartsWith line dGitChars then
    let parts := goSplit ' ' line
    if 4 ≤ parts.length then
      let file := stripVcsMarker (parts.getD 2 [])
      if goStartsWith file crdBasesDir then files ++ [file] else files
    else files
  else files

/-- filterRelevantFiles from main.go. -/
def filterRelevantFiles (gitDiff : GoStr) : List GoStr :=
  (goSplit '\n' gitDiff).foldl relFilesStep []

/-- The "@@" hunk-header marker. -/
def atatChars : GoStr := ['@', '@']

/-- One iteration of the extraction loop of summarizeGitDiff: file headers
and hunk headers are written to the summary (each followed by a newline);
added and removed lines are collected into changedLines. -/
def sumStep (st : GoStr × List GoStr) (line : GoStr) : GoStr × List GoStr :=
  if goStartsWith line dGitChars then (st.1 ++ line ++ ['\n'], st.2)
  else if goStartsWith line atatChars then (st.1 ++ line ++ ['\n'], st.2)
  else if goStartsWith line ['+'] && !goStartsWith line ['+', '+', '+'] then
    (st.1, st.2 ++ [line])
  else if goStartsWith line ['-'] && !goStartsWith line ['-', '-', '-'] then
    (st.1, st.2 ++ [line])
  else st

/-- The "\nKey changes:\n" section marker written by summarizeGitDiff. -/
def keyChangesHdr : GoStr := "\nKey changes:\n".toList

/-- The note written when more than maxChanges changed lines exist. -/
def truncNote : GoStr := "... [additional changes truncated]\n".toList

/-- The indexed loop over changedLines in summarizeGitDiff: writes each
line followed by a newline until the index reaches maxChanges = 20, at
which point it writes the truncation note and stops. -/
def writeChanges : Nat → List GoStr → GoStr
  | _, [] => []
  | i, l :: rest =>
    if 20 ≤ i then truncNote else l ++ '\n' :: writeChanges (i + 1) rest

/-- summarizeGitDiff from main.go: the first component of the loop state is
the summary builder, the second the collected changedLines. -/
def summarizeGitDiff (gitDiff : GoStr) : GoStr :=
  ((goSplit '\n' gitDiff).foldl sumStep ([], [])).1 ++ keyChangesHdr ++
    writeChanges 0 ((goSplit '\n' gitDiff).foldl sumStep ([], [])).2

/-- Adding a key to the Go terms map, modelled as an insertion-ordered
duplicate-free list of keys. -/
def addTerm (ts : List GoStr) (t : GoStr) : List GoStr :=
  if strMem t ts then ts else ts ++ [t]

/-- Adding several keys in order. -/
def addTerms (ts : List GoStr) (new : List GoStr) : List GoStr :=
  new.foldl addTerm ts

/-- The eight static CRD vocabulary terms inserted first by
extractSearchTermsFromDiff, in source order. -/
def staticTerms : List GoStr :=
  ["custom resource".toList, "api reference".toList,
   "configuration reference".toList, "crd".toList,
   "custom resource definition".toList, "field descriptions".toList,
   "schema".toList, "yaml".toList]

/-- The synonym bundle added when a changed file path contains
"imagebasedupgrade". -/
def ibuBundle : List GoStr :=
  ["imagebasedupgrade".toList, "image-based-upgrade".toList,
   "image based upgrade".toList, "ibu".toList]

/-- The synonym bundle added when a changed file path contains
"seedgenerator". -/
def seedBundle : List GoStr :=
  ["seedgenerator".toList, "seed-generator".toList,
   "seed generator".toList]

/-- The changed-file loop body of extractSearchTermsFromDiff. -/
def fileTerms (ts : List GoStr) (file : GoStr) : List GoStr :=
  let ts1 := if containsSub file "imagebasedupgrade".toList then addTerms ts ibuBundle else ts
  if containsSub file "seedgenerator".toList then addTerms ts1 seedBundle else ts1

/-- The six keyword terms scanned for in diff lines, in source order. -/
def keywordTerms : List GoStr :=
  ["stage".toList, "idle".toList, "nop".toList,
   "rollback".toList, "spec".toList, "status".toList]

/-- One conditional keyword insertion, the Go pattern
if strings.Contains(...) then terms[k] = true. -/
def condAdd (c : Bool) (ts : List GoStr) (t : GoStr) : List GoStr :=
  if c then addTerm ts t else ts

/-- The diff-line loop body of extractSearchTermsFromDiff: a line that
contains a plus or minus character anywhere is scanned (case-insensitively)
for the six keyword substrings, each hit inserting that keyword. -/
def lineTerms (ts : List GoStr) (line : GoStr) : List GoStr :=
  if containsSub line ['+'] || containsSub line ['-'] then
    let low := toLowerGo line
    condAdd (containsSub low "status".toList)
      (condAdd (containsSub low "spec".toList)
        (condAdd (containsSub low "rollback".toList)
          (condAdd (containsSub low "nop".toList)
            (condAdd (containsSub low "idle".toList)
              (condAdd (containsSub low "stage".toList) ts "stage".toList)
              "idle".toList)
            "nop".toList)
          "rollback".toList)
        "spec".toList)
      "status".toList
  else ts

/-- The key set of the terms map built by extractSearchTermsFromDiff,
listed in Go map insertion order. -/
def termsOf (gitDiff : GoStr) (changedFiles : List GoStr) : List GoStr :=
  let ts0 := addTerms [] staticTerms
  let ts1 := changedFiles.foldl fileTerms ts0
  (goSplit '\n' gitDiff).foldl lineTerms ts1

/-- The priorityOrder list of extractSearchTermsFromDiff, in source order. -/
def priorityOrder : List GoStr :=
  ["custom resource".toList, "api reference".toList, "crd".toList,
   "configuration reference".toList, "imagebasedupgrade".toList,
   "image-based-upgrade".toList, "ibu".toList, "seedgenerator".toList,
   "seed-generator".toList, "schema".toList, "yaml".toList]

/-- The terms left in the map after the priority pass deleted the priority
hits, in insertion order (one admissible Go map iteration order). -/
def remainderOf (gitDiff : GoStr) (changedFiles : List GoStr) : List GoStr :=
  (termsOf gitDiff changedFiles).filter (fun t => !strMem t priorityOrder)

/-- extractSearchTermsFromDiff from main.go, with the Go map range order of
the non-priority remainder made explicit as the parameter rem: Go randomizes
map iteration order, so every permutation of the remainder is an admissible
run of the source function. The priority hits are appended first in
priorityOrder order, then the remainder, then the list is capped at 10. -/
def extractWithOrder (gitDiff : GoStr) (changedFiles : List GoStr)
    (rem : List GoStr) : List GoStr :=
  if 10 < (priorityOrder.filter
      (fun t => strMem t (termsOf gitDiff changedFiles)) ++ rem).length then
    (priorityOrder.filter
      (fun t => strMem t (termsOf gitDiff changedFiles)) ++ rem).take 10
  else
    priorityOrder.filter (fun t => strMem t (termsOf gitDiff changedFiles)) ++ rem

/-- extractSearchTermsFromDiff at the canonical (insertion-order) map
iteration order. -/
def extractSearchTermsFromDiff (gitDiff : GoStr) (changedFiles : List GoStr) : List GoStr :=
  extractWithOrder gitDiff changedFiles (remainderOf gitDiff changedFiles)

/-- A regular filesystem entry visited by the WalkDir traversal of a target
directory of the cloned docs repository: its path relative to the docs root,
whether it is a directory, and its content (none when the file is
unreadable, making os.ReadFile fail). The filesystem itself is external to
the program and is therefore modelled as data. -/
structure DocFile where
  relPath : GoStr
  isDir : Bool
  content : Option GoStr
deriving DecidableEq

/-- One target subdirectory (edge_computing or modules) of the docs clone:
whether it exists on disk, whether its WalkDir traversal fails with an
error, and the entries visited in traversal order. -/
structure TargetDir where
  dirOnDisk : Bool
  walkFails : Bool
  entries : List DocFile
deriving DecidableEq

/-- d.Name() of an entry: the final slash-separated component of its path. -/
def baseName (p : GoStr) : GoStr :=
  (goSplit '/' p).getLastD []

/-- The recognised documentation extension ".adoc". -/
def adocExt : GoStr := ".adoc".toList

/-- The extension test of the WalkDir callback: a non-directory entry whose
lowercased name ends in ".adoc". -/
def adocCheck (f : DocFile) : Bool :=
  !f.isDir && goEndsWith (toLowerGo (baseName f.relPath)) adocExt

/-- The term test of the WalkDir callback: the lowercased content contains
some search term (lowercased), stopping at the first hit. -/
def fileMatches (terms : List GoStr) (c : GoStr) : Bool :=
  terms.any (fun t => containsSub (toLowerGo c) (toLowerGo t))

/-- The WalkDir callback body: a readable non-directory .adoc entry whose
content matches a term is appended, everything else is skipped. -/
def walkStep (terms : List GoStr) (acc : List GoStr) (f : DocFile) : List GoStr :=
  if adocCheck f then
    match f.content with
    | none => acc
    | some c => if fileMatches terms c then acc ++ [f.relPath] else acc
  else acc

/-- The WalkDir traversal of one target directory in
searchRelevantDocsFiles: a directory absent from disk is skipped with a
warning; a failing traversal is an error; otherwise the callback runs over
the entries in traversal order. -/
def walkTargetDir (terms : List GoStr) (dir : TargetDir) : Except Unit (List GoStr) :=
  if !dir.dirOnDisk then .ok []
  else if dir.walkFails then .error ()
  else .ok (dir.entries.foldl (walkStep terms) [])

/-- The per-directory accumulation of searchRelevantDocsFiles: an error
aborts, otherwise the relative paths found in the directory are appended. -/
def searchStep (terms : List GoStr) (acc : Except Unit (List GoStr))
    (dir : TargetDir) : Except Unit (List GoStr) :=
  match acc with
  | .error e => .error e
  | .ok files =>
    match walkTargetDir terms dir with
    | .error e => .error e
    | .ok more => .ok (files ++ more)

/-- searchRelevantDocsFiles from main.go, over the filesystem model: the
target directories are walked in order, accumulating relative paths;
any traversal error aborts the search with an error. -/
def searchRelevantDocsFiles (fs : List TargetDir) (changedFiles : List GoStr)
    (gitDiff : GoStr) : Except Unit (List GoStr) :=
  fs.foldl (searchStep (extractSearchTermsFromDiff gitDiff changedFiles)) (.ok [])

/-- Go fmt %v rendering of a string slice: the elements space-separated
inside square brackets. -/
def goShowStrSlice (l : List GoStr) : GoStr :=
  '[' :: joinWith ' ' l ++ [']']

/-- The docs base URL from main.go. -/
def baseURL : GoStr :=
  "https://github.com/openshift/openshift-docs/blob/enterprise-4.19".toList

/-- Segment of the prompt template before the %v verb. -/
def tmplSeg1 : GoStr :=
  ("Given the following CRD (Custom Resource Definition) changes to the lifecycle-agent project, analyze what specific CRD documentation files need updates.\n\n**CRD files changed in config/crd/bases/:** ").toList

/-- Segment of the prompt template between %v and the first %s. -/
def tmplSeg2 : GoStr :=
  ("\n\n**Found CRD documentation files that explain detailed API information (VERIFIED TO EXIST):**\n").toList

/-- Segment of the prompt template between the first and second %s. -/
def tmplSeg3 : GoStr :=
  ("\n\n**Verified URLs containing CRD details to update:**\n").toList

/-- Segment of the prompt template between the second and third %s. -/
def tmplSeg4 : GoStr :=
  ("\n\nPlease focus SPECIFICALLY on files that contain detailed CRD information such as:\n- API field descriptions and schemas\n- Custom Resource configuration references  \n- YAML example configurations\n- Field validation rules and enum values\n- CRD specification documentation\n\nFor each file, provide:\n1. **CRD Field Updates**: Which specific CRD field descriptions need changes\n2. **Schema Changes**: What schema documentation needs updating (enum values, validation rules)\n3. **YAML Examples**: Exact YAML configuration examples that need modification\n4. **Field Descriptions**: Specific field description text that needs updates\n5. **Priority**: Which CRD documentation aspects are most critical to update\n\n**Summary of CRD changes:**\n").toList

/-- Segment of the prompt template after the third %s. -/
def tmplSeg5 : GoStr :=
  ("\n\nIMPORTANT: Focus ONLY on files that contain detailed CRD schemas, field descriptions, API references, and configuration examples. Ignore general usage guides - target only the detailed technical CRD documentation.").toList

/-- The fmt.Sprintf instantiation of the prompt template in main. -/
def promptOf (changedFiles relevantDocFiles verifiedURLs : List GoStr)
    (gitDiffSummary : GoStr) : GoStr :=
  tmplSeg1 ++ goShowStrSlice changedFiles ++ tmplSeg2 ++
    joinWith '\n' relevantDocFiles ++ tmplSeg3 ++
    joinWith '\n' verifiedURLs ++ tmplSeg4 ++ gitDiffSummary ++ tmplSeg5

/-- Observable events of a run of main, in order of occurrence. -/
inductive Ev
  | printNoDiff
  | printNoCRD
  | cloneStarted
  | modelCalled
  | tempDirRemoved
deriving DecidableEq

/-- Exit code and event trace of a run of main. -/
structure MainOut where
  exitCode : Nat
  trace : List Ev
deriving DecidableEq

/-- The external world of one run of main: whether the API key is set, the
outcome of the git diff acquisition, of the temporary directory creation, of
the git clone, the state of the cloned docs filesystem, and the outcome of
the model request. -/
structure MainEnv where
  apiKeyPresent : Bool
  gitDiffResult : Except GoStr GoStr
  mkdirTempOk : Bool
  cloneOk : Bool
  docsFs : List TargetDir
  modelOk : Bool

/-- The main function of main.go over the environment model, recording exit
code and events. Go defer semantics are modelled faithfully: the deferred
os.RemoveAll registered after a successful clone runs only when main
returns normally; log.Fatal and log.Fatalf call os.Exit(1), which
terminates the process without running deferred calls. cloneOpenShiftDocs
removes the temporary directory itself when the git clone command fails. -/
def mainModel (env : MainEnv) : MainOut :=
  if !env.apiKeyPresent then ⟨1, []⟩
  else
    match env.gitDiffResult with
    | .error _ => ⟨1, []⟩
    | .ok fullGitDiff =>
      if goTrimSpace fullGitDiff = [] then ⟨0, [.printNoDiff]⟩
      else
        let gitDiff := filterGitDiffByCRD fullGitDiff
        if goTrimSpace gitDiff = [] then ⟨0, [.printNoCRD]⟩
        else
          let changedFiles := filterRelevantFiles gitDiff
          if !env.mkdirTempOk then ⟨1, []⟩
          else if !env.cloneOk then ⟨1, [.cloneStarted, .tempDirRemoved]⟩
          else
            match searchRelevantDocsFiles env.docsFs changedFiles gitDiff with
            | .error _ => ⟨1, [.cloneStarted]⟩
            | .ok found =>
              let relevantDocFiles := if 15 < found.length then found.take 15 else found
              let verifiedURLs := relevantDocFiles.map (fun f => baseURL ++ '/' :: f)
              let gitDiffSummary := truncateString (summarizeGitDiff gitDiff) 5000
              let prompt := promptOf changedFiles relevantDocFiles verifiedURLs gitDiffSummary
              let estimatedTokens := prompt.length / 4
              if 180000 < estimatedTokens then ⟨1, [.cloneStarted]⟩
              else if !env.modelOk then ⟨1, [.cloneStarted]⟩
              else ⟨0, [.cloneStarted, .modelCalled, .tempDirRemoved]⟩

/-- Declarative form of the retained-line selection of filterGitDiffByCRD:
walk the lines carrying the relevance verdict of the most recent
well-formed header, a malformed header leaving the verdict unchanged, and
keep exactly the lines whose current verdict is true, in order. -/
def keepWithVerdict : Bool → List GoStr → List GoStr
  | _, [] => []
  | b, l :: rest =>
    let b1 := crdVerdict b l
    (if b1 then [l] else []) ++ keepWithVerdict b1 rest

/-- Modelled from the claim sentence, not from the source: the
header-relevance rule in which a malformed header line (fewer than four
space-separated tokens) is itself treated as not relevant, so that no
following line is retained until a well-formed relevant header appears. -/
def claimVerdict (prev : Bool) (line : GoStr) : Bool :=
  if goStartsWith line dGitChars then
    let parts := goSplit ' ' line
    if 4 ≤ parts.length then
      goStartsWith (stripVcsMarker (parts.getD 2 [])) crdBasesDir
    else false
  else prev

/-- Modelled from the claim sentence: the line selection of the claim,
using claimVerdict in place of crdVerdict. -/
def claimKeep : Bool → List GoStr → List GoStr
  | _, [] => []
  | b, l :: rest =>
    let b1 := claimVerdict b l
    (if b1 then [l] else []) ++ claimKeep b1 rest

/-- Modelled from the claim sentence: the diff filter described by the
claim, joining the lines selected by claimKeep. -/
def claimFilterByCRD (gitDiff : GoStr) : GoStr :=
  joinWith '\n' (claimKeep false (goSplit '\n' gitDiff))

/-- A line written to the summary header section by summarizeGitDiff:
a "diff --git" file header or an "@@" hunk header. -/
def isSumHdr (l : GoStr) : Bool :=
  goStartsWith l dGitChars || goStartsWith l atatChars

/-- A line collected into changedLines by summarizeGitDiff: an added line
that is not "+++" or a removed line that is not "---". -/
def isChangedLine (l : GoStr) : Bool :=
  (goStartsWith l ['+'] && !goStartsWith l ['+', '+', '+']) ||
  (goStartsWith l ['-'] && !goStartsWith l ['-', '-', '-'])

/-- Each line followed by a newline, concatenated. -/
def catLinesNl : List GoStr → GoStr
  | [] => []
  | l :: rest => l ++ '\n' :: catLinesNl rest

theorem crdStep_foldl (ls : List GoStr) :
    ∀ (b : Bool) (acc : List GoStr),
      (ls.foldl crdStep (b, acc)).2 = acc ++ keepWithVerdict b ls := by
  induction ls with
  | nil => intro b acc; simp [keepWithVerdict]
  | cons l rest ih =>
    intro b acc
    simp only [List.foldl_cons, keepWithVerdict]
    rw [show crdStep (b, acc) l =
      (crdVerdict b l, if crdVerdict b l then acc ++ [l] else acc) from rfl]
    rw [ih]
    by_cases h : crdVerdict b l = true
    · simp [h]
    · simp only [Bool.not_eq_true] at h
      simp [h]

/-- C2 (amended): for every diff text, filterGitDiffByCRD retains exactly
the lines, in original order, whose current relevance verdict is true,
where the verdict is set by each well-formed "diff --git" header according
to whether its stripped old-side path starts with config/crd/bases/, and a
malformed header line (fewer than four space-separated tokens) leaves the
verdict unchanged rather than clearing it. -/
theorem C2_filter_characterisation (gitDiff : GoStr) :
    filterGitDiffByCRD gitDiff =
      joinWith '\n' (keepWithVerdict false (goSplit '\n' gitDiff)) := by
  unfold filterGitDiffByCRD
  rw [crdStep_foldl]
  rfl

/-- C2 (counterexample): on a diff whose third line is the malformed header
"diff --git" occurring while inside a relevant file, the source function
keeps all following lines, whereas the claim says no line after the
malformed header is retained until a well-formed relevant header appears;
the claim-mandated output drops the malformed header line and the line
after it. -/
theorem C2_counterexample :
    filterGitDiffByCRD
        "diff --git a/config/crd/bases/x b/x\n+f\ndiff --git\n+g".toList =
      "diff --git a/config/crd/bases/x b/x\n+f\ndiff --git\n+g".toList ∧
    claimFilterByCRD
        "diff --git a/config/crd/bases/x b/x\n+f\ndiff --git\n+g".toList =
      "diff --git a/config/crd/bases/x b/x\n+f".toList ∧
    filterGitDiffByCRD
        "diff --git a/config/crd/bases/x b/x\n+f\ndiff --git\n+g".toList ≠
      claimFilterByCRD
        "diff --git a/config/crd/bases/x b/x\n+f\ndiff --git\n+g".toList := by
  refine ⟨by decide, by decide, by decide⟩

theorem relFilesStep_mem (files : List GoStr) (line : GoStr) (f : GoStr)
    (hf : f ∈ relFilesStep files line) :
    f ∈ files ∨ goStartsWith f crdBasesDir = true := by
  unfold relFilesStep at hf
  by_cases h1 : goStartsWith line dGitChars = true
  · simp only [h1, if_true] at hf
    by_cases h2 : 4 ≤ (goSplit ' ' line).length
    · simp only [if_pos h2] at hf
      by_cases h3 : goStartsWith (stripVcsMarker ((goSplit ' ' line).getD 2 [])) crdBasesDir = true
      · simp only [h3, if_true, List.mem_append, List.mem_singleton] at hf
        rcases hf with hf | hf
        · exact Or.inl hf
        · subst hf; exact Or.inr h3
      · simp only [Bool.not_eq_true] at h3
        simp only [h3, if_false] at hf
        exact Or.inl hf
    · simp only [if_neg h2] at hf
      exact Or.inl hf
  · simp only [Bool.not_eq_true] at h1
    simp only [h1, if_false] at hf
    exact Or.inl hf

theorem relFiles_foldl_mem (ls : List GoStr) :
    ∀ (files : List GoStr) (f : GoStr),
      f ∈ ls.foldl relFilesStep files →
      f ∈ files ∨ goStartsWith f crdBasesDir = true := by
  induction ls with
  | nil => intro files f hf; exact Or.inl hf
  | cons l rest ih =>
    intro files f hf
    simp only [List.foldl_cons] at hf
    rcases ih (relFilesStep files l) f hf with h | h
    · exact relFilesStep_mem files l f h
    · exact Or.inr h

/-- C9: every path in the changed-file list produced by filterRelevantFiles
starts with the prefix config/crd/bases/. -/
theorem C9_changed_files_under_crd_dir (gitDiff : GoStr) (f : GoStr)
    (hf : f ∈ filterRelevantFiles gitDiff) :
    goStartsWith f crdBasesDir = true := by
  rcases relFiles_foldl_mem (goSplit '\n' gitDiff) [] f hf with h | h
  · cases h
  · exact h

/-- C9 (witness): filterRelevantFiles on a concrete two-file diff keeps
exactly the CRD path, and the theorem applies to it. -/
theorem C9_changed_files_under_crd_dir_witness :
    goStartsWith "config/crd/bases/x".toList crdBasesDir = true :=
  C9_changed_files_under_crd_dir
    "diff --git a/config/crd/bases/x b/x\ndiff --git a/other b/other".toList
    "config/crd/bases/x".toList (by decide)

theorem goSplit_no_sep (sep : Char) :
    ∀ s : GoStr, sep ∉ s → goSplit sep s = [s] := by
  intro s
  induction s with
  | nil => intro _; rfl
  | cons c rest ih =>
    intro h
    have hc : c ≠ sep := fun he => h (he ▸ List.mem_cons_self c rest)
    have hr : sep ∉ rest := fun hm => h (List.mem_cons_of_mem c hm)
    unfold goSplit
    rw [ih hr]
    simp [hc]

theorem goSplit_ne_nil (sep : Char) :
    ∀ s : GoStr, goSplit sep s ≠ [] := by
  intro s
  cases s with
  | nil => simp [goSplit]
  | cons c rest =>
    unfold goSplit
    rcases goSplit sep rest with _ | ⟨seg, segs⟩
    · simp
    · by_cases hc : c = sep <;> simp [hc]

theorem goSplit_cons (sep c : Char) (rest : GoStr) :
    goSplit sep (c :: rest) =
      match goSplit sep rest with
      | [] => [[]]
      | seg :: segs => if c = sep then [] :: seg :: segs else (c :: seg) :: segs := rfl

theorem goSplit_sep_append (sep : Char) :
    ∀ (a b : GoStr), sep ∉ a →
      goSplit sep (a ++ sep :: b) = a :: goSplit sep b := by
  intro a
  induction a with
  | nil =>
    intro b _
    show goSplit sep (sep :: b) = [] :: goSplit sep b
    rw [goSplit_cons]
    rcases hs : goSplit sep b with _ | ⟨seg, segs⟩
    · exact absurd hs (goSplit_ne_nil sep b)
    · simp
  | cons c rest ih =>
    intro b h
    have hc : c ≠ sep := fun he => h (he ▸ List.mem_cons_self c rest)
    have hr : sep ∉ rest := fun hm => h (List.mem_cons_of_mem c hm)
    show goSplit sep (c :: (rest ++ sep :: b)) = (c :: rest) :: goSplit sep b
    rw [goSplit_cons, ih b hr]
    simp [hc]

theorem goStartsWith_nil (s : GoStr) : goStartsWith s [] = true := by
  cases s <;> rfl

theorem goStartsWith_append (p s : GoStr) :
    goStartsWith (p ++ s) p = true := by
  induction p with
  | nil => exact goStartsWith_nil s
  | cons c rest ih =>
    show goStartsWith (c :: (rest ++ s)) (c :: rest) = true
    unfold goStartsWith
    simp [ih]

/-- A two-path "diff --git a/old b/new" header line. -/
def mkHeader (old new : GoStr) : GoStr :=
  "diff --git ".toList ++ old ++ ' ' :: new

/-- C10: relevance of a well-formed rename header and the recorded
changed-file path are decided solely by the old-side token: on the diff
consisting of the single header line "diff --git old new", both
filterRelevantFiles and filterGitDiffByCRD test the stripped old-side path
against config/crd/bases/ and record the stripped old-side path; the
new-side token never enters the result. -/
theorem C10_old_side_decides (old new : GoStr)
    (hso : ' ' ∉ old) (hsn : ' ' ∉ new)
    (hno : '\n' ∉ old) (hnn : '\n' ∉ new) :
    filterRelevantFiles (mkHeader old new) =
      (if goStartsWith (stripVcsMarker old) crdBasesDir then [stripVcsMarker old] else []) ∧
    filterGitDiffByCRD (mkHeader old new) =
      (if goStartsWith (stripVcsMarker old) crdBasesDir then mkHeader old new else []) := by
  have hnl : ('\n') ∉ mkHeader old new := by
    rw [show mkHeader old new = "diff --git ".toList ++ (old ++ ' ' :: new) from rfl]
    intro hmem
    rcases List.mem_append.1 hmem with h | h
    · exact absurd h (by decide)
    · rcases List.mem_append.1 h with h | h
      · exact hno h
      · rcases List.mem_cons.1 h with h | h
        · exact absurd h (by decide)
        · exact hnn h
  have hpre : goStartsWith (mkHeader old new) dGitChars = true := by
    rw [show mkHeader old new = dGitChars ++ (' ' :: (old ++ ' ' :: new)) from rfl]
    exact goStartsWith_append _ _
  have hsp : goSplit ' ' (mkHeader old new) =
      ["diff".toList, "--git".toList, old, new] := by
    rw [show mkHeader old new =
      "diff".toList ++ ' ' :: ("--git".toList ++ ' ' :: (old ++ ' ' :: new)) from rfl]
    rw [goSplit_sep_append ' ' _ _ (by decide)]
    rw [goSplit_sep_append ' ' _ _ (by decide)]
    rw [goSplit_sep_append ' ' _ _ hso]
    rw [goSplit_no_sep ' ' new hsn]
  constructor
  · unfold filterRelevantFiles
    rw [goSplit_no_sep '\n' _ hnl]
    show relFilesStep [] (mkHeader old new) = _
    unfold relFilesStep
    rw [hpre, hsp]
    simp
  · unfold filterGitDiffByCRD
    rw [goSplit_no_sep '\n' _ hnl]
    show joinWith '\n' (crdStep (false, []) (mkHeader old new)).2 = _
    unfold crdStep crdVerdict
    rw [hpre, hsp]
    by_cases hrel : goStartsWith (stripVcsMarker old) crdBasesDir = true
    · simp only [List.getD]
      simp [hrel, joinWith]
    · simp only [Bool.not_eq_true] at hrel
      simp only [List.getD]
      simp [hrel, joinWith]

/-- C10 (witness): for the rename header with old side under
config/crd/bases/ and new side elsewhere, the old path is recorded and the
line retained, independent of the new path. -/
theorem C10_old_side_decides_witness :
    filterRelevantFiles (mkHeader "a/config/crd/bases/foo.yaml".toList "b/other.yaml".toList) =
      (if goStartsWith (stripVcsMarker "a/config/crd/bases/foo.yaml".toList) crdBasesDir then
        [stripVcsMarker "a/config/crd/bases/foo.yaml".toList] else []) ∧
    filterGitDiffByCRD (mkHeader "a/config/crd/bases/foo.yaml".toList "b/other.yaml".toList) =
      (if goStartsWith (stripVcsMarker "a/config/crd/bases/foo.yaml".toList) crdBasesDir then
        mkHeader "a/config/crd/bases/foo.yaml".toList "b/other.yaml".toList else []) :=
  C10_old_side_decides "a/config/crd/bases/foo.yaml".toList "b/other.yaml".toList
    (by decide) (by decide) (by decide) (by decide)

theorem goStartsWith_head (l : GoStr) (c : Char) (p : GoStr)
    (h : goStartsWith l (c :: p) = true) : ∃ t, l = c :: t := by
  cases l with
  | nil => simp [goStartsWith] at h
  | cons a t =>
    unfold goStartsWith at h
    by_cases hc : c = a
    · subst hc; exact ⟨t, rfl⟩
    · simp [hc] at h

theorem goStartsWith_ne_head (l : GoStr) (c c' : Char) (p p' : GoStr)
    (h : goStartsWith l (c :: p) = true) (hne : c' ≠ c) :
    goStartsWith l (c' :: p') = false := by
  obtain ⟨t, rfl⟩ := goStartsWith_head l c p h
  unfold goStartsWith
  simp [hne]

theorem isChangedLine_of_sumHdr (l : GoStr) (h : isSumHdr l = true) :
    isChangedLine l = false := by
  unfold isSumHdr at h
  rcases Bool.or_eq_true_iff.1 h with h1 | h1
  · unfold isChangedLine
    rw [goStartsWith_ne_head l 'd' '+' _ _ h1 (by decide),
      goStartsWith_ne_head l 'd' '-' _ _ h1 (by decide)]
    rfl
  · unfold isChangedLine
    rw [goStartsWith_ne_head l '@' '+' _ _ h1 (by decide),
      goStartsWith_ne_head l '@' '-' _ _ h1 (by decide)]
    rfl

theorem sumStep_foldl (ls : List GoStr) :
    ∀ (s : GoStr) (cl : List GoStr),
      ls.foldl sumStep (s, cl) =
        (s ++ catLinesNl (ls.filter isSumHdr), cl ++ ls.filter isChangedLine) := by
  induction ls with
  | nil => intro s cl; simp [catLinesNl]
  | cons l rest ih =>
    intro s cl
    simp only [List.foldl_cons]
    by_cases h1 : goStartsWith l dGitChars = true
    · have hh : isSumHdr l = true := by unfold isSumHdr; rw [h1]; rfl
      have hc : isChangedLine l = false := isChangedLine_of_sumHdr l hh
      rw [show sumStep (s, cl) l = (s ++ l ++ ['\n'], cl) from by
        unfold sumStep; rw [h1]; rfl]
      rw [ih]
      simp [List.filter_cons, hh, hc, catLinesNl, List.append_assoc]
    · by_cases h2 : goStartsWith l atatChars = true
      · have hh : isSumHdr l = true := by unfold isSumHdr; rw [h2]; simp
        have hc : isChangedLine l = false := isChangedLine_of_sumHdr l hh
        rw [show sumStep (s, cl) l = (s ++ l ++ ['\n'], cl) from by
          unfold sumStep
          rw [show goStartsWith l dGitChars = false from by
            simpa using h1, h2]
          rfl]
        rw [ih]
        simp [List.filter_cons, hh, hc, catLinesNl, List.append_assoc]
      · have h1f : goStartsWith l dGitChars = false := by simpa using h1
        have h2f : goStartsWith l atatChars = false := by simpa using h2
        have hh : isSumHdr l = false := by unfold isSumHdr; rw [h1f, h2f]; rfl
        by_cases h3 : (goStartsWith l ['+'] && !goStartsWith l ['+', '+', '+']) = true
        · have hc : isChangedLine l = true := by unfold isChangedLine; rw [h3]; rfl
          rw [show sumStep (s, cl) l = (s, cl ++ [l]) from by
            unfold sumStep; rw [h1f, h2f, h3]; rfl]
          rw [ih]
          simp [List.filter_cons, hh, hc, List.append_assoc]
        · have h3f : (goStartsWith l ['+'] && !goStartsWith l ['+', '+', '+']) = false := by
            simpa using h3
          by_cases h4 : (goStartsWith l ['-'] && !goStartsWith l ['-', '-', '-']) = true
          · have hc : isChangedLine l = true := by
              unfold isChangedLine; rw [h3f, h4]; rfl
            rw [show sumStep (s, cl) l = (s, cl ++ [l]) from by
              unfold sumStep; rw [h1f, h2f, h3f, h4]; rfl]
            rw [ih]
            simp [List.filter_cons, hh, hc, List.append_assoc]
          · have h4f : (goStartsWith l ['-'] && !goStartsWith l ['-', '-', '-']) = false := by
              simpa using h4
            have hc : isChangedLine l = false := by
              unfold isChangedLine; rw [h3f, h4f]; rfl
            rw [show sumStep (s, cl) l = (s, cl) from by
              unfold sumStep; rw [h1f, h2f, h3f, h4f]; rfl]
            rw [ih]
            simp [List.filter_cons, hh, hc]

theorem writeChanges_take :
    ∀ (cl : List GoStr) (i : Nat), i ≤ 20 →
      writeChanges i cl =
        catLinesNl (cl.take (20 - i)) ++
          (if 20 - i < cl.length then truncNote else []) := by
  intro cl
  induction cl with
  | nil => intro i _; simp [writeChanges, catLinesNl]
  | cons l rest ih =>
    intro i hi
    unfold writeChanges
    by_cases h20 : 20 ≤ i
    · have hieq : i = 20 := le_antisymm hi h20
      subst hieq
      simp [catLinesNl]
    · rw [if_neg h20]
      have hk : 20 - i = (20 - (i + 1)) + 1 := by omega
      rw [hk, List.take_succ_cons, ih (i + 1) (by omega)]
      simp only [catLinesNl, List.length_cons]
      simp [List.append_assoc, Nat.add_lt_add_iff_right]

theorem truncateString_length_le (s : GoStr) (n : Nat) :
    (truncateString s n).length ≤ n + truncMarker.length := by
  unfold truncateString
  by_cases h : s.length ≤ n
  · simp only [if_pos h]
    omega
  · simp only [if_neg h, List.length_append, List.length_take]
    omega

/-- C5 (amended): the diff summary embedded in the prompt is exactly the
file headers and hunk headers (each followed by a newline), the fixed
section marker, the first 20 changed lines, and, when more changed lines
exist, a fixed truncation note; after truncateString with the 5000
character cap the summary never exceeds 5035 characters, the cap plus the
35-character truncation marker. -/
theorem C5_summary_structure_and_bound (gitDiff : GoStr) :
    summarizeGitDiff gitDiff =
      catLinesNl ((goSplit '\n' gitDiff).filter isSumHdr) ++ keyChangesHdr ++
        (catLinesNl (((goSplit '\n' gitDiff).filter isChangedLine).take 20) ++
          (if 20 < ((goSplit '\n' gitDiff).filter isChangedLine).length then
            truncNote else [])) ∧
    (truncateString (summarizeGitDiff gitDiff) 5000).length ≤ 5035 := by
  constructor
  · unfold summarizeGitDiff
    rw [sumStep_foldl]
    simp only []
    rw [writeChanges_take _ 0 (by omega)]
    simp
  · have h := truncateString_length_le (summarizeGitDiff gitDiff) 5000
    have hm : truncMarker.length = 35 := by decide
    omega

/-- C5 (counterexample): a diff consisting of one long file-header line
makes the summary 5016 characters, and the truncated summary embedded in
the prompt has 5035 characters, exceeding the 5000-character ceiling the
claim states. -/
theorem C5_counterexample :
    5000 <
      (truncateString
        (summarizeGitDiff ("diff --git ".toList ++ List.replicate 4990 'a'))
        5000).length := by
  have hnl : ('\n') ∉ ("diff --git ".toList ++ List.replicate 4990 'a') := by
    intro hmem
    rcases List.mem_append.1 hmem with h | h
    · exact absurd h (by decide)
    · exact absurd (List.eq_of_mem_replicate h) (by decide)
  have hline : goStartsWith ("diff --git ".toList ++ List.replicate 4990 'a') dGitChars = true := by
    rw [show ("diff --git ".toList ++ List.replicate 4990 'a' : GoStr) =
      dGitChars ++ (' ' :: List.replicate 4990 'a') from rfl]
    exact goStartsWith_append _ _
  have hsum : summarizeGitDiff ("diff --git ".toList ++ List.replicate 4990 'a') =
      ([] ++ ("diff --git ".toList ++ List.replicate 4990 'a') ++ ['\n']) ++
        keyChangesHdr ++ [] := by
    unfold summarizeGitDiff
    rw [goSplit_no_sep '\n' _ hnl]
    rw [show ([("diff --git ".toList ++ List.replicate 4990 'a' : GoStr)]).foldl sumStep ([], []) =
      ([] ++ ("diff --git ".toList ++ List.replicate 4990 'a') ++ ['\n'], ([] : List GoStr)) from by
      show sumStep ([], []) ("diff --git ".toList ++ List.replicate 4990 'a') = _
      unfold sumStep
      rw [hline]
      rfl]
    rfl
  have h11 : ("diff --git ".toList : GoStr).length = 11 := by decide
  have h14 : keyChangesHdr.length = 14 := by decide
  have hlen : (summarizeGitDiff ("diff --git ".toList ++ List.replicate 4990 'a')).length = 5016 := by
    rw [hsum]
    simp only [List.length_append, List.length_replicate, List.length_nil,
      List.length_cons, h11, h14]
  have h35 : truncMarker.length = 35 := by decide
  unfold truncateString
  rw [if_neg (by omega)]
  rw [List.length_append, List.length_take, hlen, h35]
  omega

theorem strMem_iff (t : GoStr) : ∀ l : List GoStr, strMem t l = true ↔ t ∈ l := by
  intro l
  induction l with
  | nil => simp [strMem]
  | cons s rest ih =>
    unfold strMem
    by_cases h : t = s
    · simp [h]
    · simp [h, ih]

theorem addTerm_mem (ts : List GoStr) (u t : GoStr) :
    t ∈ addTerm ts u ↔ t ∈ ts ∨ t = u := by
  unfold addTerm
  by_cases h : strMem u ts = true
  · rw [if_pos h]
    constructor
    · exact Or.inl
    · rintro (h1 | rfl)
      · exact h1
      · exact (strMem_iff t ts).1 h
  · rw [if_neg h]
    simp

theorem condAdd_mem (c : Bool) (ts : List GoStr) (u t : GoStr) :
    t ∈ condAdd c ts u ↔ t ∈ ts ∨ (c = true ∧ t = u) := by
  cases c
  · simp [condAdd]
  · simp [condAdd, addTerm_mem]

theorem addTerms_mem (new : List GoStr) :
    ∀ (ts : List GoStr) (t : GoStr),
      t ∈ addTerms ts new ↔ t ∈ ts ∨ t ∈ new := by
  induction new with
  | nil => intro ts t; simp [addTerms]
  | cons u rest ih =>
    intro ts t
    show t ∈ addTerms (addTerm ts u) rest ↔ _
    rw [ih, addTerm_mem]
    simp [List.mem_cons]
    tauto

theorem fileTerms_mem_cases (ts : List GoStr) (file t : GoStr)
    (h : t ∈ fileTerms ts file) :
    t ∈ ts ∨ t ∈ ibuBundle ∨ t ∈ seedBundle := by
  unfold fileTerms at h
  by_cases h2 : containsSub file "seedgenerator".toList = true
  · rw [if_pos h2, addTerms_mem] at h
    by_cases h1 : containsSub file "imagebasedupgrade".toList = true
    · rw [if_pos h1, addTerms_mem] at h
      tauto
    · rw [if_neg h1] at h
      tauto
  · rw [if_neg h2] at h
    by_cases h1 : containsSub file "imagebasedupgrade".toList = true
    · rw [if_pos h1, addTerms_mem] at h
      tauto
    · rw [if_neg h1] at h
      tauto

theorem fileTerms_mem_mono (ts : List GoStr) (file t : GoStr) (h : t ∈ ts) :
    t ∈ fileTerms ts file := by
  unfold fileTerms
  by_cases h2 : containsSub file "seedgenerator".toList = true
  · rw [if_pos h2, addTerms_mem]
    by_cases h1 : containsSub file "imagebasedupgrade".toList = true
    · rw [if_pos h1]
      left
      rw [addTerms_mem]
      exact Or.inl h
    · rw [if_neg h1]
      exact Or.inl h
  · rw [if_neg h2]
    by_cases h1 : containsSub file "imagebasedupgrade".toList = true
    · rw [if_pos h1, addTerms_mem]
      exact Or.inl h
    · rw [if_neg h1]
      exact h

theorem fileTerms_ibu (ts : List GoStr) (file b : GoStr)
    (hf : containsSub file "imagebasedupgrade".toList = true)
    (hb : b ∈ ibuBundle) : b ∈ fileTerms ts file := by
  unfold fileTerms
  rw [if_pos hf]
  by_cases h2 : containsSub file "seedgenerator".toList = true
  · rw [if_pos h2, addTerms_mem]
    left
    rw [addTerms_mem]
    exact Or.inr hb
  · rw [if_neg h2, addTerms_mem]
    exact Or.inr hb

theorem fileTerms_seed (ts : List GoStr) (file b : GoStr)
    (hf : containsSub file "seedgenerator".toList = true)
    (hb : b ∈ seedBundle) : b ∈ fileTerms ts file := by
  unfold fileTerms
  rw [if_pos hf, addTerms_mem]
  exact Or.inr hb

theorem lineTerms_no_pm (ts : List GoStr) (line : GoStr)
    (h1 : containsSub line ['+'] = false) (h2 : containsSub line ['-'] = false) :
    lineTerms ts line = ts := by
  unfold lineTerms
  rw [h1, h2]
  rfl

theorem lineTerms_mem_cases (ts : List GoStr) (line t : GoStr)
    (h : t ∈ lineTerms ts line) : t ∈ ts ∨ t ∈ keywordTerms := by
  unfold lineTerms at h
  by_cases hc : (containsSub line ['+'] || containsSub line ['-']) = true
  · rw [if_pos hc] at h
    simp only [condAdd_mem] at h
    rcases h with ⟨⟨⟨⟨⟨h | ⟨_, rfl⟩⟩ | ⟨_, rfl⟩⟩ | ⟨_, rfl⟩⟩ | ⟨_, rfl⟩⟩ | ⟨_, rfl⟩⟩ | ⟨_, rfl⟩
    · exact Or.inl h
    all_goals exact Or.inr (by decide)
  · rw [if_neg hc] at h
    exact Or.inl h

theorem lineTerms_mem_mono (ts : List GoStr) (line t : GoStr) (h : t ∈ ts) :
    t ∈ lineTerms ts line := by
  unfold lineTerms
  by_cases hc : (containsSub line ['+'] || containsSub line ['-']) = true
  · rw [if_pos hc]
    simp only [condAdd_mem]
    tauto
  · rw [if_neg hc]
    exact h

theorem foldl_pres_mem {α β : Type} (f : β → α → β) (Q : β → Prop) :
    ∀ (l : List α), (∀ (b : β) (a : α), a ∈ l → Q b → Q (f b a)) →
      ∀ b : β, Q b → Q (l.foldl f b) := by
  intro l
  induction l with
  | nil => intro _ b hb; exact hb
  | cons a rest ih =>
    intro hf b hb
    exact ih (fun b' a' ha' => hf b' a' (List.mem_cons_of_mem a ha'))
      (f b a) (hf b a (List.mem_cons_self a rest) hb)

theorem foldl_reach {α β : Type} (f : β → α → β) (Q : β → Prop) (x : α)
    (mono : ∀ (b : β) (a : α), Q b → Q (f b a))
    (hx : ∀ b : β, Q (f b x)) :
    ∀ (l : List α) (b : β), x ∈ l → Q (l.foldl f b) := by
  intro l
  induction l with
  | nil => intro b hb; cases hb
  | cons a rest ih =>
    intro b hmem
    rcases List.mem_cons.1 hmem with rfl | hmem
    · exact foldl_pres_mem f Q rest (fun b' a' _ => mono b' a') (f b x) (hx b)
    · exact ih (f b a) hmem

/-- C4 (amended): a diff line that contains no plus and no minus character
anywhere never causes a keyword term to enter the term set: when every line
of the diff is plus-free and minus-free, no keyword appears in the term map
or in the returned term list, for any admissible map iteration order. The
source tests strings.Contains, not a line-start marker, so context or
header lines that merely contain a plus or minus do contribute. -/
theorem C4_keywords_need_plus_minus (gitDiff : GoStr) (changedFiles : List GoStr)
    (k : GoStr) (rem : List GoStr)
    (hk : k ∈ keywordTerms)
    (hperm : rem.Perm (remainderOf gitDiff changedFiles))
    (hlines : ∀ line ∈ goSplit '\n' gitDiff,
      containsSub line ['+'] = false ∧ containsSub line ['-'] = false) :
    k ∉ termsOf gitDiff changedFiles ∧
      k ∉ extractWithOrder gitDiff changedFiles rem := by
  have hstat : k ∉ staticTerms := by fin_cases hk <;> decide
  have hibu : k ∉ ibuBundle := by fin_cases hk <;> decide
  have hseed : k ∉ seedBundle := by fin_cases hk <;> decide
  have hbase : k ∉ addTerms [] staticTerms := by
    intro hmem
    rcases (addTerms_mem staticTerms [] k).1 hmem with h | h
    · cases h
    · exact hstat h
  have hfiles : k ∉ changedFiles.foldl fileTerms (addTerms [] staticTerms) := by
    refine foldl_pres_mem fileTerms (fun ts => k ∉ ts) changedFiles ?_ _ hbase
    intro ts file _ hq hmem
    rcases fileTerms_mem_cases ts file k hmem with h | h | h
    · exact hq h
    · exact hibu h
    · exact hseed h
  have hterm : k ∉ termsOf gitDiff changedFiles := by
    unfold termsOf
    refine foldl_pres_mem lineTerms (fun ts => k ∉ ts) _ ?_ _ hfiles
    intro ts line hline hq
    rw [lineTerms_no_pm ts line (hlines line hline).1 (hlines line hline).2]
    exact hq
  refine ⟨hterm, ?_⟩
  intro hmem
  unfold extractWithOrder at hmem
  have hmem2 : k ∈ priorityOrder.filter
      (fun t => strMem t (termsOf gitDiff changedFiles)) ++ rem := by
    by_cases hlen : 10 < (priorityOrder.filter
        (fun t => strMem t (termsOf gitDiff changedFiles)) ++ rem).length
    · rw [if_pos hlen] at hmem
      exact List.take_subset _ _ hmem
    · rw [if_neg hlen] at hmem
      exact hmem
  rcases List.mem_append.1 hmem2 with h | h
  · exact hterm ((strMem_iff k _).1 (List.mem_filter.1 h).2)
  · have h2 := hperm.subset h
    exact hterm (List.mem_filter.1 h2).1

/-- C4 (counterexample): the single diff line " stage-x" is neither an
added line nor a removed line (it starts with a blank), yet because it
contains a minus character the keyword "stage" is added to the term list;
removing the hyphen removes the keyword. This falsifies the claim that
only added or removed lines contribute keyword terms. -/
theorem C4_counterexample :
    goStartsWith " stage-x".toList ['+'] = false ∧
    goStartsWith " stage-x".toList ['-'] = false ∧
    "stage".toList ∈ extractSearchTermsFromDiff " stage-x".toList [] ∧
    "stage".toList ∉ extractSearchTermsFromDiff " stage x".toList [] := by
  refine ⟨by decide, by decide, by decide, by decide⟩

/-- C4 (witness): the amended theorem applied to the diff "hello\nworld",
whose lines contain no plus and no minus, showing the keyword "stage" stays
out of the term set and the canonical-order output. -/
theorem C4_keywords_need_plus_minus_witness :
    "stage".toList ∉ termsOf "hello\nworld".toList [] ∧
      "stage".toList ∉ extractWithOrder "hello\nworld".toList []
        (remainderOf "hello\nworld".toList []) :=
  C4_keywords_need_plus_minus "hello\nworld".toList [] "stage".toList
    (remainderOf "hello\nworld".toList []) (by decide) (List.Perm.refl _)
    (by decide)

theorem termsOf_of_fileTerm (gitDiff : GoStr) (cf : List GoStr)
    (file b : GoStr) (hmem : file ∈ cf)
    (hadd : ∀ ts : List GoStr, b ∈ fileTerms ts file) :
    b ∈ termsOf gitDiff cf := by
  unfold termsOf
  refine foldl_pres_mem lineTerms (fun ts => b ∈ ts) _
    (fun ts line _ hb => lineTerms_mem_mono ts line b hb) _ ?_
  exact foldl_reach fileTerms (fun ts => b ∈ ts) file
    (fun ts f hb => fileTerms_mem_mono ts f b hb) (fun ts => hadd ts) cf _ hmem

theorem priority_head_survives (gitDiff : GoStr) (cf rem : List GoStr)
    (t : GoStr) (ht : t ∈ priorityOrder.take 10)
    (hts : t ∈ termsOf gitDiff cf) :
    t ∈ extractWithOrder gitDiff cf rem := by
  have hp : strMem t (termsOf gitDiff cf) = true := (strMem_iff t _).2 hts
  have hsplit : priorityOrder.filter (fun u => strMem u (termsOf gitDiff cf)) =
      (priorityOrder.take 10).filter (fun u => strMem u (termsOf gitDiff cf)) ++
      (priorityOrder.drop 10).filter (fun u => strMem u (termsOf gitDiff cf)) := by
    rw [← List.filter_append, List.take_append_drop]
  have htF : t ∈ (priorityOrder.take 10).filter
      (fun u => strMem u (termsOf gitDiff cf)) :=
    List.mem_filter.2 ⟨ht, hp⟩
  have hlenF : ((priorityOrder.take 10).filter
      (fun u => strMem u (termsOf gitDiff cf))).length ≤ 10 := by
    calc ((priorityOrder.take 10).filter _).length
        ≤ (priorityOrder.take 10).length := List.length_filter_le _ _
      _ ≤ 10 := by decide
  unfold extractWithOrder
  rw [hsplit]
  by_cases hlen : 10 <
      (((priorityOrder.take 10).filter (fun u => strMem u (termsOf gitDiff cf)) ++
        (priorityOrder.drop 10).filter (fun u => strMem u (termsOf gitDiff cf))) ++ rem).length
  · rw [if_pos hlen, List.append_assoc, List.take_append_eq_append_take,
      List.take_of_length_le hlenF]
    exact List.mem_append_left _ htF
  · rw [if_neg hlen, List.append_assoc]
    exact List.mem_append_left _ htF

/-- C3 (amended): for each fixed iteration order of the non-priority
remainder the extraction is a deterministic function of the diff text, the
changed files and that order; whenever a changed-file path contains
imagebasedupgrade or seedgenerator, every synonym of that component bundle
is present in the term set before the ten-term cap, and the synonyms of
that bundle listed in priorityOrder are present in the final term list.
The spaced synonym forms are not priority terms and the cap may drop them,
as the counterexample shows. -/
theorem C3_bundle_terms (gitDiff : GoStr) (cf rem : List GoStr)
    (hperm : rem.Perm (remainderOf gitDiff cf)) :
    (∀ file ∈ cf, containsSub file "imagebasedupgrade".toList = true →
      (∀ b ∈ ibuBundle, b ∈ termsOf gitDiff cf) ∧
      (∀ b ∈ ["imagebasedupgrade".toList, "image-based-upgrade".toList,
        "ibu".toList], b ∈ extractWithOrder gitDiff cf rem)) ∧
    (∀ file ∈ cf, containsSub file "seedgenerator".toList = true →
      (∀ b ∈ seedBundle, b ∈ termsOf gitDiff cf) ∧
      (∀ b ∈ ["seedgenerator".toList, "seed-generator".toList],
        b ∈ extractWithOrder gitDiff cf rem)) := by
  constructor
  · intro file hmem hc
    have hts : ∀ b ∈ ibuBundle, b ∈ termsOf gitDiff cf := by
      intro b hb
      exact termsOf_of_fileTerm gitDiff cf file b hmem
        (fun ts => fileTerms_ibu ts file b hc hb)
    refine ⟨hts, ?_⟩
    intro b hb
    have hbp : b ∈ priorityOrder.take 10 := by fin_cases hb <;> decide
    have hbb : b ∈ ibuBundle := by fin_cases hb <;> decide
    exact priority_head_survives gitDiff cf rem b hbp (hts b hbb)
  · intro file hmem hc
    have hts : ∀ b ∈ seedBundle, b ∈ termsOf gitDiff cf := by
      intro b hb
      exact termsOf_of_fileTerm gitDiff cf file b hmem
        (fun ts => fileTerms_seed ts file b hc hb)
    refine ⟨hts, ?_⟩
    intro b hb
    have hbp : b ∈ priorityOrder.take 10 := by fin_cases hb <;> decide
    have hbb : b ∈ seedBundle := by fin_cases hb <;> decide
    exact priority_head_survives gitDiff cf rem b hbp (hts b hbb)

/-- C3 (counterexample): on the empty diff with the single changed file
config/crd/bases/imagebasedupgrade.yaml the terms map holds twelve keys, so
the cap to ten drops all but one remainder key; two admissible Go map
iteration orders of the remainder yield different term lists, and under the
first order the bundle synonym "image based upgrade" is absent from the
output, falsifying both the run-to-run determinism and the
whole-bundle-presence parts of the claim. -/
theorem C3_counterexample :
    (["custom resource definition".toList, "field descriptions".toList,
      "image based upgrade".toList] : List GoStr).Perm
      (remainderOf [] ["config/crd/bases/imagebasedupgrade.yaml".toList]) ∧
    (["image based upgrade".toList, "custom resource definition".toList,
      "field descriptions".toList] : List GoStr).Perm
      (remainderOf [] ["config/crd/bases/imagebasedupgrade.yaml".toList]) ∧
    extractWithOrder [] ["config/crd/bases/imagebasedupgrade.yaml".toList]
      ["custom resource definition".toList, "field descriptions".toList,
        "image based upgrade".toList] ≠
    extractWithOrder [] ["config/crd/bases/imagebasedupgrade.yaml".toList]
      ["image based upgrade".toList, "custom resource definition".toList,
        "field descriptions".toList] ∧
    containsSub "config/crd/bases/imagebasedupgrade.yaml".toList
      "imagebasedupgrade".toList = true ∧
    "image based upgrade".toList ∈ ibuBundle ∧
    "image based upgrade".toList ∉
      extractWithOrder [] ["config/crd/bases/imagebasedupgrade.yaml".toList]
        ["custom resource definition".toList, "field descriptions".toList,
          "image based upgrade".toList] := by
  refine ⟨by decide, by decide, by decide, by decide, by decide, by decide⟩

/-- C3 (witness): the amended theorem applied to the changed file
config/crd/bases/imagebasedupgrade.yaml at the canonical iteration order:
the whole bundle is in the term set and the three priority synonyms are in
the final list. -/
theorem C3_bundle_terms_witness :
    (∀ b ∈ ibuBundle,
      b ∈ termsOf [] ["config/crd/bases/imagebasedupgrade.yaml".toList]) ∧
    (∀ b ∈ ["imagebasedupgrade".toList, "image-based-upgrade".toList,
      "ibu".toList],
      b ∈ extractWithOrder [] ["config/crd/bases/imagebasedupgrade.yaml".toList]
        (remainderOf [] ["config/crd/bases/imagebasedupgrade.yaml".toList])) :=
  (C3_bundle_terms [] ["config/crd/bases/imagebasedupgrade.yaml".toList]
      (remainderOf [] ["config/crd/bases/imagebasedupgrade.yaml".toList])
      (List.Perm.refl _)).1
    "config/crd/bases/imagebasedupgrade.yaml".toList (by decide) (by decide)

/-- Every string the extraction can ever insert into the terms map: the
static vocabulary, the two component bundles and the six keywords. -/
def termUniverse : List GoStr :=
  staticTerms ++ ibuBundle ++ seedBundle ++ keywordTerms

theorem termsOf_universe (gitDiff : GoStr) (cf : List GoStr) :
    ∀ t ∈ termsOf gitDiff cf, t ∈ termUniverse := by
  unfold termsOf
  refine foldl_pres_mem lineTerms (fun ts => ∀ t ∈ ts, t ∈ termUniverse) _ ?_ _ ?_
  · intro ts line _ hq t ht
    rcases lineTerms_mem_cases ts line t ht with h | h
    · exact hq t h
    · exact List.mem_append_right _ h
  · refine foldl_pres_mem fileTerms (fun ts => ∀ t ∈ ts, t ∈ termUniverse) _ ?_ _ ?_
    · intro ts file _ hq t ht
      rcases fileTerms_mem_cases ts file t ht with h | h | h
      · exact hq t h
      · simp only [termUniverse, List.mem_append]
        tauto
      · simp only [termUniverse, List.mem_append]
        tauto
    · intro t ht
      rcases (addTerms_mem staticTerms [] t).1 ht with h | h
      · cases h
      · simp only [termUniverse, List.mem_append]
        tauto

theorem addTerm_nodup (ts : List GoStr) (u : GoStr) (h : ts.Nodup) :
    (addTerm ts u).Nodup := by
  unfold addTerm
  by_cases hm : strMem u ts = true
  · rw [if_pos hm]; exact h
  · rw [if_neg hm]
    refine List.Nodup.append h (List.nodup_singleton u) ?_
    intro a ha ha2
    rw [List.mem_singleton] at ha2
    subst ha2
    exact hm ((strMem_iff a ts).2 ha)

theorem condAdd_nodup (c : Bool) (ts : List GoStr) (u : GoStr) (h : ts.Nodup) :
    (condAdd c ts u).Nodup := by
  cases c
  · exact h
  · exact addTerm_nodup ts u h

theorem addTerms_nodup (new : List GoStr) :
    ∀ ts : List GoStr, ts.Nodup → (addTerms ts new).Nodup := by
  induction new with
  | nil => intro ts h; exact h
  | cons u rest ih =>
    intro ts h
    exact ih (addTerm ts u) (addTerm_nodup ts u h)

theorem fileTerms_nodup (ts : List GoStr) (file : GoStr) (h : ts.Nodup) :
    (fileTerms ts file).Nodup := by
  unfold fileTerms
  by_cases h2 : containsSub file "seedgenerator".toList = true
  · rw [if_pos h2]
    by_cases h1 : containsSub file "imagebasedupgrade".toList = true
    · rw [if_pos h1]
      exact addTerms_nodup _ _ (addTerms_nodup _ _ h)
    · rw [if_neg h1]
      exact addTerms_nodup _ _ h
  · rw [if_neg h2]
    by_cases h1 : containsSub file "imagebasedupgrade".toList = true
    · rw [if_pos h1]
      exact addTerms_nodup _ _ h
    · rw [if_neg h1]
      exact h

theorem lineTerms_nodup (ts : List GoStr) (line : GoStr) (h : ts.Nodup) :
    (lineTerms ts line).Nodup := by
  unfold lineTerms
  by_cases hc : (containsSub line ['+'] || containsSub line ['-']) = true
  · rw [if_pos hc]
    exact condAdd_nodup _ _ _ (condAdd_nodup _ _ _ (condAdd_nodup _ _ _
      (condAdd_nodup _ _ _ (condAdd_nodup _ _ _ (condAdd_nodup _ _ _ h)))))
  · rw [if_neg hc]
    exact h

theorem termsOf_nodup (gitDiff : GoStr) (cf : List GoStr) :
    (termsOf gitDiff cf).Nodup := by
  unfold termsOf
  refine foldl_pres_mem lineTerms List.Nodup _
    (fun ts line _ h => lineTerms_nodup ts line h) _ ?_
  refine foldl_pres_mem fileTerms List.Nodup _
    (fun ts file _ h => fileTerms_nodup ts file h) _ ?_
  exact addTerms_nodup staticTerms [] List.nodup_nil

/-- C6: for every diff text, changed-file list and admissible map iteration
order of the remainder, the returned term list has at most ten elements,
has no duplicates, every element is non-empty and lowercase, and the cap
never drops a priority term while keeping a non-priority term: if some
priority term present in the map misses the output, every output element
is a priority term. -/
theorem C6_extract_bounds (gitDiff : GoStr) (cf rem : List GoStr)
    (hperm : rem.Perm (remainderOf gitDiff cf)) :
    (extractWithOrder gitDiff cf rem).length ≤ 10 ∧
    (extractWithOrder gitDiff cf rem).Nodup ∧
    (∀ t ∈ extractWithOrder gitDiff cf rem, t ≠ [] ∧ toLowerGo t = t) ∧
    ((∃ p ∈ priorityOrder, p ∈ termsOf gitDiff cf ∧
        p ∉ extractWithOrder gitDiff cf rem) →
      ∀ t ∈ extractWithOrder gitDiff cf rem, t ∈ priorityOrder) := by
  have hRnodup : (priorityOrder.filter
      (fun t => strMem t (termsOf gitDiff cf)) ++ rem).Nodup := by
    refine List.Nodup.append (List.Nodup.filter _ (by decide))
      ((hperm.nodup_iff).2 (List.Nodup.filter _ (termsOf_nodup gitDiff cf))) ?_
    intro a ha ha2
    have h1 : a ∈ priorityOrder := (List.mem_filter.1 ha).1
    have h2 := (List.mem_filter.1 (hperm.subset ha2)).2
    rw [Bool.not_eq_true'] at h2
    exact absurd ((strMem_iff a priorityOrder).2 h1) (by simp [h2])
  have hsub : ∀ t ∈ extractWithOrder gitDiff cf rem,
      t ∈ priorityOrder.filter (fun t => strMem t (termsOf gitDiff cf)) ++ rem := by
    intro t ht
    unfold extractWithOrder at ht
    by_cases hlen : 10 < (priorityOrder.filter
        (fun t => strMem t (termsOf gitDiff cf)) ++ rem).length
    · rw [if_pos hlen] at ht
      exact List.take_subset _ _ ht
    · rw [if_neg hlen] at ht
      exact ht
  have hUniv : ∀ t ∈ extractWithOrder gitDiff cf rem, t ∈ termUniverse := by
    intro t ht
    rcases List.mem_append.1 (hsub t ht) with h | h
    · have h1 : t ∈ priorityOrder := (List.mem_filter.1 h).1
      have hPU : ∀ u ∈ priorityOrder, u ∈ termUniverse := by decide
      exact hPU t h1
    · exact termsOf_universe gitDiff cf t
        (List.mem_filter.1 (hperm.subset h)).1
  refine ⟨?_, ?_, ?_, ?_⟩
  · unfold extractWithOrder
    by_cases hlen : 10 < (priorityOrder.filter
        (fun t => strMem t (termsOf gitDiff cf)) ++ rem).length
    · rw [if_pos hlen]
      simp [List.length_take]
    · rw [if_neg hlen]
      omega
  · unfold extractWithOrder
    by_cases hlen : 10 < (priorityOrder.filter
        (fun t => strMem t (termsOf gitDiff cf)) ++ rem).length
    · rw [if_pos hlen]
      exact List.Nodup.sublist (List.take_sublist _ _) hRnodup
    · rw [if_neg hlen]
      exact hRnodup
  · intro t ht
    have hU := hUniv t ht
    have hAll : ∀ u ∈ termUniverse, u ≠ [] ∧ toLowerGo u = u := by decide
    exact hAll t hU
  · rintro ⟨p, hpP, hpts, hpnot⟩ t ht
    have hpF : p ∈ priorityOrder.filter
        (fun t => strMem t (termsOf gitDiff cf)) :=
      List.mem_filter.2 ⟨hpP, (strMem_iff p _).2 hpts⟩
    unfold extractWithOrder at ht hpnot
    by_cases hlen : 10 < (priorityOrder.filter
        (fun t => strMem t (termsOf gitDiff cf)) ++ rem).length
    · rw [if_pos hlen] at ht hpnot
      by_cases hPlen : (priorityOrder.filter
          (fun t => strMem t (termsOf gitDiff cf))).length ≤ 10
      · exfalso
        apply hpnot
        rw [List.take_append_eq_append_take, List.take_of_length_le hPlen]
        exact List.mem_append_left _ hpF
      · rw [List.take_append_eq_append_take,
          show 10 - (priorityOrder.filter
            (fun t => strMem t (termsOf gitDiff cf))).length = 0 from by omega,
          List.take_zero, List.append_nil] at ht
        exact (List.mem_filter.1 (List.take_subset _ _ ht)).1
    · exfalso
      rw [if_neg hlen] at hpnot
      exact hpnot (List.mem_append_left _ hpF)

/-- C6 (witness): the bounds theorem applied to the empty diff with the
imagebasedupgrade changed file at the canonical iteration order. -/
theorem C6_extract_bounds_witness :
    (extractWithOrder [] ["config/crd/bases/imagebasedupgrade.yaml".toList]
      (remainderOf [] ["config/crd/bases/imagebasedupgrade.yaml".toList])).length ≤ 10 ∧
    (extractWithOrder [] ["config/crd/bases/imagebasedupgrade.yaml".toList]
      (remainderOf [] ["config/crd/bases/imagebasedupgrade.yaml".toList])).Nodup ∧
    (∀ t ∈ extractWithOrder [] ["config/crd/bases/imagebasedupgrade.yaml".toList]
      (remainderOf [] ["config/crd/bases/imagebasedupgrade.yaml".toList]),
      t ≠ [] ∧ toLowerGo t = t) ∧
    ((∃ p ∈ priorityOrder,
        p ∈ termsOf [] ["config/crd/bases/imagebasedupgrade.yaml".toList] ∧
        p ∉ extractWithOrder [] ["config/crd/bases/imagebasedupgrade.yaml".toList]
          (remainderOf [] ["config/crd/bases/imagebasedupgrade.yaml".toList])) →
      ∀ t ∈ extractWithOrder [] ["config/crd/bases/imagebasedupgrade.yaml".toList]
        (remainderOf [] ["config/crd/bases/imagebasedupgrade.yaml".toList]),
        t ∈ priorityOrder) :=
  C6_extract_bounds [] ["config/crd/bases/imagebasedupgrade.yaml".toList]
    (remainderOf [] ["config/crd/bases/imagebasedupgrade.yaml".toList])
    (List.Perm.refl _)

theorem getLastD_cons_irrel {α : Type} (x : α) (rest : List α) (d₁ d₂ : α) :
    (x :: rest).getLastD d₁ = (x :: rest).getLastD d₂ := by
  cases rest <;> rfl

theorem joinWith_ends (sep : Char) :
    ∀ l : List GoStr, l ≠ [] →
      ∃ q : GoStr, joinWith sep l = q ++ l.getLastD [] := by
  intro l
  induction l with
  | nil => intro h; cases h rfl
  | cons x rest ih =>
    intro _
    cases rest with
    | nil => exact ⟨[], by simp [joinWith, List.getLastD]⟩
    | cons y t =>
      obtain ⟨q, hq⟩ := ih (by simp)
      refine ⟨x ++ sep :: q, ?_⟩
      show x ++ sep :: joinWith sep (y :: t) = _
      rw [show ((x :: y :: t : List GoStr)).getLastD [] = (y :: t).getLastD x from rfl,
        ← getLastD_cons_irrel y t [] x]
      rw [hq]
      simp [List.append_assoc]

theorem goSplit_join (sep : Char) :
    ∀ s : GoStr, joinWith sep (goSplit sep s) = s := by
  intro s
  induction s with
  | nil => rfl
  | cons c rest ih =>
    rw [goSplit_cons]
    rcases hs : goSplit sep rest with _ | ⟨seg, segs⟩
    · exact absurd hs (goSplit_ne_nil sep rest)
    · rw [hs] at ih
      show joinWith sep
        (if c = sep then [] :: seg :: segs else (c :: seg) :: segs) = c :: rest
      by_cases hc : c = sep
      · rw [if_pos hc]
        show ([] : GoStr) ++ sep :: joinWith sep (seg :: segs) = c :: rest
        rw [List.nil_append, ih, hc]
      · rw [if_neg hc]
        cases segs with
        | nil =>
          show (c :: seg : GoStr) = c :: rest
          rw [show joinWith sep [seg] = seg from rfl] at ih
          rw [ih]
        | cons s2 t2 =>
          show c :: (seg ++ sep :: joinWith sep (s2 :: t2)) = c :: rest
          rw [show seg ++ sep :: joinWith sep (s2 :: t2) =
            joinWith sep (seg :: s2 :: t2) from rfl, ih]

theorem baseName_suffix (p : GoStr) : ∃ q : GoStr, p = q ++ baseName p := by
  obtain ⟨q, hq⟩ := joinWith_ends '/' (goSplit '/' p) (goSplit_ne_nil '/' p)
  refine ⟨q, ?_⟩
  rw [show baseName p = (goSplit '/' p).getLastD [] from rfl, ← hq,
    goSplit_join '/' p]

theorem goStartsWith_extend :
    ∀ (a b pat : GoStr), goStartsWith a pat = true →
      goStartsWith (a ++ b) pat = true := by
  intro a
  induction a with
  | nil =>
    intro b pat h
    cases pat with
    | nil => exact goStartsWith_nil b
    | cons q p => simp [goStartsWith] at h
  | cons c s ih =>
    intro b pat h
    cases pat with
    | nil => exact goStartsWith_nil _
    | cons q p =>
      have h2 : (if q = c then goStartsWith s p else false) = true := h
      by_cases hq : q = c
      · rw [if_pos hq] at h2
        show (if q = c then goStartsWith (s ++ b) p else false) = true
        rw [if_pos hq]
        exact ih b p h2
      · rw [if_neg hq] at h2
        cases h2

theorem adoc_suffix_lift (p : GoStr)
    (h : goEndsWith (toLowerGo (baseName p)) adocExt = true) :
    goEndsWith (toLowerGo p) adocExt = true := by
  obtain ⟨q, hq⟩ := baseName_suffix p
  unfold goEndsWith toLowerGo at h ⊢
  rw [hq, List.map_append, List.reverse_append]
  exact goStartsWith_extend _ _ _ h

theorem walkStep_mem (terms : List GoStr) (acc : List GoStr) (f : DocFile)
    (p : GoStr) (hp : p ∈ walkStep terms acc f) :
    p ∈ acc ∨ (p = f.relPath ∧ adocCheck f = true ∧ f.content ≠ none) := by
  unfold walkStep at hp
  by_cases ha : adocCheck f = true
  · rw [if_pos ha] at hp
    rcases hc : f.content with _ | c
    · rw [hc] at hp
      exact Or.inl hp
    · rw [hc] at hp
      have hp2 : p ∈ (if fileMatches terms c = true then acc ++ [f.relPath] else acc) := hp
      by_cases hm : fileMatches terms c = true
      · rw [if_pos hm] at hp2
        rcases List.mem_append.1 hp2 with h | h
        · exact Or.inl h
        · exact Or.inr ⟨List.mem_singleton.1 h, ha, fun h2 => by cases h2⟩
      · rw [if_neg hm] at hp2
        exact Or.inl hp2
  · rw [if_neg ha] at hp
    exact Or.inl hp

theorem walkTargetDir_ok (terms : List GoStr) (dir : TargetDir)
    (hw : dir.dirOnDisk = true → dir.walkFails = false) :
    ∃ more, walkTargetDir terms dir = .ok more ∧
      ∀ p ∈ more, dir.dirOnDisk = true ∧
        ∃ f ∈ dir.entries, f.relPath = p ∧ f.isDir = false ∧
          f.content ≠ none ∧ goEndsWith (toLowerGo p) adocExt = true := by
  unfold walkTargetDir
  by_cases hd : dir.dirOnDisk = true
  · rw [show (!dir.dirOnDisk) = false from by rw [hd]; rfl]
    rw [if_neg Bool.false_ne_true, hw hd]
    rw [if_neg Bool.false_ne_true]
    refine ⟨dir.entries.foldl (walkStep terms) [], rfl, ?_⟩
    refine foldl_pres_mem (walkStep terms)
      (fun acc => ∀ p ∈ acc, dir.dirOnDisk = true ∧
        ∃ f ∈ dir.entries, f.relPath = p ∧ f.isDir = false ∧
          f.content ≠ none ∧ goEndsWith (toLowerGo p) adocExt = true)
      dir.entries ?_ [] (by intro p hp; cases hp)
    intro acc f hf hq p hp
    rcases walkStep_mem terms acc f p hp with h | ⟨rfl, hadoc, hcont⟩
    · exact hq p h
    · refine ⟨hd, f, hf, rfl, ?_, hcont, ?_⟩
      · unfold adocCheck at hadoc
        rcases Bool.and_eq_true_iff.1 hadoc with ⟨h1, _⟩
        simpa using h1
      · unfold adocCheck at hadoc
        rcases Bool.and_eq_true_iff.1 hadoc with ⟨_, h2⟩
        exact adoc_suffix_lift f.relPath h2
  · have hd2 : dir.dirOnDisk = false := by simpa using hd
    rw [show (!dir.dirOnDisk) = true from by rw [hd2]; rfl]
    rw [if_pos rfl]
    exact ⟨[], rfl, by intro p hp; cases hp⟩

theorem searchStep_fold (terms : List GoStr) :
    ∀ (fs : List TargetDir),
      (∀ dir ∈ fs, dir.dirOnDisk = true → dir.walkFails = false) →
      ∀ l₀ : List GoStr,
        ∃ l, fs.foldl (searchStep terms) (.ok l₀) = .ok l ∧
          ∀ p ∈ l, p ∈ l₀ ∨
            (goEndsWith (toLowerGo p) adocExt = true ∧
              ∃ dir ∈ fs, dir.dirOnDisk = true ∧
                ∃ f ∈ dir.entries, f.relPath = p ∧ f.isDir = false ∧
                  f.content ≠ none) := by
  intro fs
  induction fs with
  | nil =>
    intro _ l₀
    exact ⟨l₀, rfl, fun p hp => Or.inl hp⟩
  | cons dir rest ih =>
    intro hw l₀
    obtain ⟨more, hmore, hmoreP⟩ :=
      walkTargetDir_ok terms dir (hw dir (List.mem_cons_self dir rest))
    obtain ⟨l, hl, hlP⟩ :=
      ih (fun d hd => hw d (List.mem_cons_of_mem dir hd)) (l₀ ++ more)
    refine ⟨l, ?_, ?_⟩
    · rw [List.foldl_cons,
        show searchStep terms (.ok l₀) dir = .ok (l₀ ++ more) from by
          unfold searchStep; rw [hmore]]
      exact hl
    · intro p hp
      rcases hlP p hp with h | ⟨hsuf, d, hd, hrest⟩
      · rcases List.mem_append.1 h with h2 | h2
        · exact Or.inl h2
        · obtain ⟨hdisk, f, hf, hfp, hfd, hfc, hsuf⟩ := hmoreP p h2
          exact Or.inr ⟨hsuf, dir, List.mem_cons_self dir rest, hdisk, f, hf, hfp, hfd, hfc⟩
      · exact Or.inr ⟨hsuf, d, List.mem_cons_of_mem dir hd, hrest⟩

/-- C7: when no existing target directory fails its traversal,
searchRelevantDocsFiles succeeds and every reported path ends in .adoc
case-insensitively and names a readable non-directory entry of a target
directory that exists on disk; absent directories and unreadable files are
skipped without failing the search. -/
theorem C7_search_output_shape (fs : List TargetDir) (changedFiles : List GoStr)
    (gitDiff : GoStr)
    (hw : ∀ dir ∈ fs, dir.dirOnDisk = true → dir.walkFails = false) :
    ∃ l, searchRelevantDocsFiles fs changedFiles gitDiff = .ok l ∧
      ∀ p ∈ l, goEndsWith (toLowerGo p) adocExt = true ∧
        ∃ dir ∈ fs, dir.dirOnDisk = true ∧
          ∃ f ∈ dir.entries, f.relPath = p ∧ f.isDir = false ∧
            f.content ≠ none := by
  obtain ⟨l, hl, hlP⟩ :=
    searchStep_fold (extractSearchTermsFromDiff gitDiff changedFiles) fs hw []
  refine ⟨l, hl, ?_⟩
  intro p hp
  rcases hlP p hp with h | h
  · cases h
  · exact h

/-- C7 (witness): a concrete filesystem with one existing directory holding
an unreadable .adoc file and a matching readable .adoc file, one absent
directory, and no traversal failure: the theorem applies. -/
theorem C7_search_output_shape_witness :
    ∃ l, searchRelevantDocsFiles
        [⟨true, false, [⟨"sub/locked.adoc".toList, false, none⟩,
          ⟨"sub/guide.adoc".toList, false, some "about the custom resource".toList⟩]⟩,
         ⟨false, false, []⟩] [] [] = .ok l ∧
      ∀ p ∈ l, goEndsWith (toLowerGo p) adocExt = true ∧
        ∃ dir ∈ ([⟨true, false, [⟨"sub/locked.adoc".toList, false, none⟩,
          ⟨"sub/guide.adoc".toList, false, some "about the custom resource".toList⟩]⟩,
         ⟨false, false, []⟩] : List TargetDir), dir.dirOnDisk = true ∧
          ∃ f ∈ dir.entries, f.relPath = p ∧ f.isDir = false ∧
            f.content ≠ none :=
  C7_search_output_shape
    [⟨true, false, [⟨"sub/locked.adoc".toList, false, none⟩,
      ⟨"sub/guide.adoc".toList, false, some "about the custom resource".toList⟩]⟩,
     ⟨false, false, []⟩] [] [] (by decide)

/-- C8: when the API key is present and the acquired diff is empty after
trimming, or the diff restricted to config/crd/bases/ is empty after
trimming, the process prints the explanatory message and exits with status
0 without starting the documentation clone and without calling the model. -/
theorem C8_benign_empty_exits_zero (env : MainEnv) (d : GoStr)
    (hkey : env.apiKeyPresent = true)
    (hdiff : env.gitDiffResult = .ok d)
    (hempty : goTrimSpace d = [] ∨
      (goTrimSpace d ≠ [] ∧ goTrimSpace (filterGitDiffByCRD d) = [])) :
    (mainModel env).exitCode = 0 ∧
    Ev.cloneStarted ∉ (mainModel env).trace ∧
    Ev.modelCalled ∉ (mainModel env).trace ∧
    (Ev.printNoDiff ∈ (mainModel env).trace ∨
      Ev.printNoCRD ∈ (mainModel env).trace) := by
  rcases hempty with h1 | ⟨h1, h2⟩
  · simp [mainModel, hkey, hdiff, h1]
  · simp [mainModel, hkey, hdiff, h1, h2]

/-- C8 (witness): a run whose diff touches only a file outside
config/crd/bases/ exits 0 without cloning or calling the model. -/
theorem C8_benign_empty_exits_zero_witness :
    (mainModel ⟨true, .ok "diff --git a/other.go b/other.go\n+x".toList,
      true, true, [], true⟩).exitCode = 0 ∧
    Ev.cloneStarted ∉ (mainModel ⟨true,
      .ok "diff --git a/other.go b/other.go\n+x".toList,
      true, true, [], true⟩).trace ∧
    Ev.modelCalled ∉ (mainModel ⟨true,
      .ok "diff --git a/other.go b/other.go\n+x".toList,
      true, true, [], true⟩).trace ∧
    (Ev.printNoDiff ∈ (mainModel ⟨true,
      .ok "diff --git a/other.go b/other.go\n+x".toList,
      true, true, [], true⟩).trace ∨
      Ev.printNoCRD ∈ (mainModel ⟨true,
        .ok "diff --git a/other.go b/other.go\n+x".toList,
        true, true, [], true⟩).trace) :=
  C8_benign_empty_exits_zero _ "diff --git a/other.go b/other.go\n+x".toList
    rfl rfl (Or.inr ⟨by decide, by decide⟩)

set_option maxRecDepth 40000 in
/-- C1: with a CRD diff and a successful clone, a docs-search failure makes
main call log.Fatalf, which exits the process without running the deferred
os.RemoveAll, so the temporary clone directory is not removed; likewise on
a model-call failure; it is removed only on normal completion. This
contradicts the claim that the directory is removed on every path. -/
theorem C1_cleanup_skipped_on_fatal_paths :
    mainModel ⟨true,
        .ok "diff --git a/config/crd/bases/x.yaml b/config/crd/bases/x.yaml".toList,
        true, true, [⟨true, true, []⟩, ⟨true, false, []⟩], true⟩ =
      ⟨1, [Ev.cloneStarted]⟩ ∧
    Ev.tempDirRemoved ∉ (mainModel ⟨true,
        .ok "diff --git a/config/crd/bases/x.yaml b/config/crd/bases/x.yaml".toList,
        true, true, [⟨true, true, []⟩, ⟨true, false, []⟩], true⟩).trace ∧
    mainModel ⟨true,
        .ok "diff --git a/config/crd/bases/x.yaml b/config/crd/bases/x.yaml".toList,
        true, true, [⟨true, false, []⟩, ⟨false, false, []⟩], false⟩ =
      ⟨1, [Ev.cloneStarted]⟩ ∧
    mainModel ⟨true,
        .ok "diff --git a/config/crd/bases/x.yaml b/config/crd/bases/x.yaml".toList,
        true, true, [⟨true, false, []⟩, ⟨false, false, []⟩], true⟩ =
      ⟨0, [Ev.cloneStarted, Ev.modelCalled, Ev.tempDirRemoved]⟩ := by
  refine ⟨by decide, by decide, by decide, by decide⟩

